import Mathlib

/-!
Shallow embedding of the Caesar-cipher cracking core of `src/main.py`
(functions `normalize_text`, `decrypt_cesar_frequency_analysis` and
`bruteforce_cesar`), together with theorems checking the repository's
specification against it.

Modelling conventions:
* Python strings are Lean `String`s (logically `List Char`); single
  characters are `Char`.
* Fallible operations return `Except String α`; a Python `ValueError`
  raised by `str.index` is modelled as `.error "substring not found"`
  and a failed `assert` as `.error` with the assertion's message.
* Python `float` ratios (an exact small-integer division in every case
  relevant here) are modelled by exact rationals `ℚ`.
* The Unicode-dependent behaviour of the Python runtime
  (`str.isupper`, `str.islower`, `str.isalpha`, `str.lower`,
  `str.upper`, `str.split`, `unicodedata.normalize('NFD', ·)` and the
  `Mn` category) is modelled on a documented finite fragment of the
  Unicode tables: exact on all ASCII characters, plus the explicitly
  listed non-ASCII codepoints used in this development; every other
  codepoint is treated as uncased, non-alphabetic, decomposition-inert
  and not a combining mark.
-/

deriving instance DecidableEq for Except

namespace Cesar

attribute [local semireducible] Rat.mul Rat.inv

/-- Uppercase characters beyond ASCII modelled from the Unicode tables used
by Python's `str.isupper`: U+00C0 À, U+00C7 Ç, U+00C9 É (Latin-1 capitals,
category Lu) and U+03A9 Ω (Greek capital omega, category Lu). -/
def extraUpper : List Char := ['À', 'Ç', 'É', 'Ω']

/-- Lowercase characters beyond ASCII modelled from the Unicode tables used
by Python's `str.islower`: U+00E0 à, U+00E7 ç, U+00E9 é and U+03C9 ω
(category Ll). -/
def extraLower : List Char := ['à', 'ç', 'é', 'ω']

/-- Python's `str.isupper` on a single character, on the modelled fragment:
ASCII `A`–`Z` plus the listed non-ASCII capitals. -/
def pyIsUpper (c : Char) : Bool :=
  (65 ≤ c.toNat && c.toNat ≤ 90) || extraUpper.contains c

/-- Python's `str.islower` on a single character, on the modelled fragment:
ASCII `a`–`z` plus the listed non-ASCII lowercase letters. -/
def pyIsLower (c : Char) : Bool :=
  (97 ≤ c.toNat && c.toNat ≤ 122) || extraLower.contains c

/-- Simple-lowercase pairs for the modelled non-ASCII capitals, from the
Unicode simple case mappings used by Python's `str.lower`. -/
def lowerPairs : List (Char × Char) := [('À', 'à'), ('Ç', 'ç'), ('É', 'é'), ('Ω', 'ω')]

/-- Python's `str.lower` on a single character, on the modelled fragment. -/
def pyLower (c : Char) : Char :=
  if 65 ≤ c.toNat && c.toNat ≤ 90 then Char.ofNat (c.toNat + 32)
  else
    match lowerPairs.find? (fun p => p.1 == c) with
    | some p => p.2
    | none => c

/-- Simple-uppercase pairs for the modelled non-ASCII lowercase letters. -/
def upperPairs : List (Char × Char) := [('à', 'À'), ('ç', 'Ç'), ('é', 'É'), ('ω', 'Ω')]

/-- Python's `str.upper` on a single character, on the modelled fragment. -/
def pyUpper (c : Char) : Char :=
  if 97 ≤ c.toNat && c.toNat ≤ 122 then Char.ofNat (c.toNat - 32)
  else
    match upperPairs.find? (fun p => p.1 == c) with
    | some p => p.2
    | none => c

/-- Python's `str.isalpha` on a single character, on the modelled fragment:
ASCII letters plus the listed non-ASCII letters (all of category L*). -/
def pyIsAlpha (c : Char) : Bool :=
  (65 ≤ c.toNat && c.toNat ≤ 90) || (97 ≤ c.toNat && c.toNat ≤ 122) || pyIsUpper c || pyIsLower c

/-- Whitespace recognised by Python's argumentless `str.split`, on the
modelled (ASCII) fragment. -/
def pyIsSpace (c : Char) : Bool :=
  c == ' ' || c == '\t' || c == '\n' || c == '\r' || c == '\x0b' || c == '\x0c'

/-- Combining marks (Unicode category `Mn`) of the modelled fragment:
U+0300 combining grave, U+0301 combining acute, U+0327 combining cedilla. -/
def mnChars : List Char := ['̀', '́', '̧']

/-- The `unicodedata.category(c) == 'Mn'` test of `main.py` line 25, on the
modelled fragment. -/
def isMn (c : Char) : Bool := mnChars.contains c

/-- Canonical (NFD) decompositions of the modelled precomposed characters,
from the Unicode decomposition mappings used by
`unicodedata.normalize('NFD', ·)`. -/
def nfdTable : List (Char × List Char) :=
  [('À', ['A', '̀']), ('à', ['a', '̀']),
   ('Ç', ['C', '̧']), ('ç', ['c', '̧']),
   ('É', ['E', '́']), ('é', ['e', '́'])]

/-- NFD decomposition of a single character on the modelled fragment;
characters outside the table are decomposition-inert. -/
def nfdDecomp (c : Char) : List Char :=
  match nfdTable.find? (fun p => p.1 == c) with
  | some p => p.2
  | none => [c]

/-- One character's contribution to `normalize_text`: NFD-decompose, then
drop the characters of category `Mn` (`main.py` lines 23–25). -/
def normChar (c : Char) : List Char := (nfdDecomp c).filter (fun d => !isMn d)

/-- `normalize_text` of `main.py` lines 10–25: NFD-decompose the string and
remove all characters of Unicode category `Mn`. -/
def normalize_text (s : String) : String := ⟨s.data.flatMap normChar⟩

/-- The cipher alphabet of `main.py` lines 85 and 130. -/
def alphabet : List Char := "abcdefghijklmnopqrstuvwxyz".data

/-- Python's `alphabet.index c`: the first index of `c` in `alphabet`, or
`none` where Python raises `ValueError`. -/
def alphabetIndex? (c : Char) : Option Nat := alphabet.findIdx? (fun d => d == c)

/-- One character of the decryption comprehension shared by `main.py`
lines 101–106 and 139–144: an uppercase character is lowered, located in
the alphabet, shifted back by `shift` modulo 26 and uppercased; a lowercase
character likewise but kept lowercase; everything else is unchanged. The
alphabet lookup fails (Python `ValueError`) when the lowered character is
not one of the 26 lowercase Latin letters. -/
def shiftCharDecode (shift : Nat) (c : Char) : Except String Char :=
  if pyIsUpper c then
    match alphabetIndex? (pyLower c) with
    | some i => .ok (pyUpper (alphabet.getD (((i : Int) - shift) % 26).toNat ' '))
    | none => .error "substring not found"
  else if pyIsLower c then
    match alphabetIndex? (pyLower c) with
    | some i => .ok (alphabet.getD (((i : Int) - shift) % 26).toNat ' ')
    | none => .error "substring not found"
  else .ok c

/-- Modelled from the spec: the encoding direction of the Shift Cipher
primitive ("adding `s`", §4.2/§8), which `src/main.py` itself never
implements; identical to `shiftCharDecode` with the shift added instead of
subtracted. -/
def shiftCharEncode (shift : Nat) (c : Char) : Except String Char :=
  if pyIsUpper c then
    match alphabetIndex? (pyLower c) with
    | some i => .ok (pyUpper (alphabet.getD (((i : Int) + shift) % 26).toNat ' '))
    | none => .error "substring not found"
  else if pyIsLower c then
    match alphabetIndex? (pyLower c) with
    | some i => .ok (alphabet.getD (((i : Int) + shift) % 26).toNat ' ')
    | none => .error "substring not found"
  else .ok c

/-- The whole decryption comprehension applied character by character, in
order; the first failing character aborts with its error, as the Python
generator expression does. -/
def decryptChars (shift : Nat) : List Char → Except String (List Char)
  | [] => .ok []
  | c :: cs =>
    match shiftCharDecode shift c with
    | .error e => .error e
    | .ok d =>
      match decryptChars shift cs with
      | .error e => .error e
      | .ok ds => .ok (d :: ds)

/-- Python's argumentless `str.split` (`main.py` line 146): split on runs
of whitespace, discarding empty words. `cur` accumulates the current word
reversed. -/
def splitWordsAux : List Char → List Char → List (List Char)
  | [], cur => if cur.isEmpty then [] else [cur.reverse]
  | c :: cs, cur =>
    if pyIsSpace c then
      if cur.isEmpty then splitWordsAux cs [] else cur.reverse :: splitWordsAux cs []
    else splitWordsAux cs (c :: cur)

/-- The words of a decoded text (`decrypted_text.split()`). -/
def splitWords (cs : List Char) : List (List Char) := splitWordsAux cs []

/-- The valid-word ratio of `main.py` lines 146–150: the fraction of
whitespace-delimited words whose lowercased form lies in the vocabulary,
and `0` when there are no words. -/
def wordRatio (vocabulary : List (List Char)) (decrypted : List Char) : ℚ :=
  let words := splitWords decrypted
  if words.isEmpty then 0
  else ((words.filter (fun w => vocabulary.contains (w.map pyLower))).length : ℚ) / (words.length : ℚ)

/-- The valid-word ratio a given shift would score on `ct`, and `0` where
decryption fails. -/
def ratioAt (vocabulary : List (List Char)) (ct : List Char) (shift : Nat) : ℚ :=
  match decryptChars shift ct with
  | .ok d => wordRatio vocabulary d
  | .error _ => 0

/-- The number of words a given shift produces on `ct` (`len(words)`). -/
def wordCountAt (ct : List Char) (shift : Nat) : Nat :=
  match decryptChars shift ct with
  | .ok d => (splitWords d).length
  | .error _ => 0

/-- The mutable best-candidate state of `bruteforce_cesar`
(`main.py` lines 132–134): `best` bundles `best_match` and `best_shift`
(both `None` initially, always set together), `bestRatio` is
`best_valid_ratio` (initially `0`). -/
structure BFState where
  best : Option (List Char × Nat)
  bestRatio : ℚ
deriving DecidableEq

/-- The candidate shifts of `main.py` line 137: `range(1, 26)`. -/
def bfShifts : List Nat := List.range' 1 25

/-- The loop body of `bruteforce_cesar` (`main.py` lines 137–156) over a
list of remaining shifts: decrypt, score, and update the best candidate
exactly when the new ratio is strictly greater. -/
def bfLoop (vocabulary : List (List Char)) (ct : List Char) (st : BFState) :
    List Nat → Except String BFState
  | [] => .ok st
  | s :: rest =>
    match decryptChars s ct with
    | .error e => .error e
    | .ok d =>
      let r := wordRatio vocabulary d
      if st.bestRatio < r then bfLoop vocabulary ct ⟨some (d, s), r⟩ rest
      else bfLoop vocabulary ct st rest

/-- The message of the final `assert` of `bruteforce_cesar`
(`main.py` line 159). -/
def bfAssertMsg : String := "Aucune correspondance valide trouvee lors du bruteforce."

/-- `bruteforce_cesar` of `main.py` lines 113–160: try every shift in
`bfShifts`, keep the strictly best-scoring candidate, and fail
(`assert best_match`) when no candidate was ever recorded (or when the
recorded text is the empty, hence falsy, string). -/
def bruteforce_cesar (ct : List Char) (vocabulary : List (List Char)) :
    Except String (List Char × Nat × ℚ) :=
  match bfLoop vocabulary ct ⟨none, 0⟩ bfShifts with
  | .error e => .error e
  | .ok st =>
    match st.best with
    | some (m, s) => if m.isEmpty then .error bfAssertMsg else .ok (m, s, st.bestRatio)
    | none => .error bfAssertMsg

/-- The case-folded alphabetic characters of a text, in text order
(`main.py` line 89). -/
def lettersOf (cs : List Char) : List Char := (cs.filter pyIsAlpha).map pyLower

/-- The distinct elements of a character list in order of first occurrence:
the key order of a Python `Counter` built by scanning the list. -/
def firstSeenAux (seen : List Char) : List Char → List Char
  | [] => []
  | c :: cs =>
    if seen.contains c then firstSeenAux seen cs
    else c :: firstSeenAux (c :: seen) cs

/-- Distinct characters in first-occurrence order. -/
def firstSeen (cs : List Char) : List Char := firstSeenAux [] cs

/-- `Counter(letters).most_common(1)[0][0]` of `main.py` line 96: the
first-encountered letter of maximal count (`heapq.nlargest` is equivalent
to a stable descending sort, so insertion order breaks ties), or `none`
when there are no letters. -/
def mostCommon? (letters : List Char) : Option Char :=
  match firstSeen letters with
  | [] => none
  | d :: ds => some (ds.foldl (fun best c => if letters.count best < letters.count c then c else best) d)

/-- `decrypt_cesar_frequency_analysis` of `main.py` lines 67–109:
normalize, count case-folded letters, return `none` (Python
`(None, None)`) when there are no letters, otherwise derive the shift from
the most frequent letter and the target letter and decode the normalized
text with it. The `target_letter` is a `Char`, the one-character
precondition of line 81 being enforced by the type. -/
def decrypt_cesar_frequency_analysis (cipher_text : String) (target_letter : Char) :
    Except String (Option (String × Nat)) :=
  let ct := normalize_text cipher_text
  match mostCommon? (lettersOf ct.data) with
  | none => .ok none
  | some m =>
    match alphabetIndex? m with
    | none => .error "substring not found"
    | some im =>
      match alphabetIndex? target_letter with
      | none => .error "substring not found"
      | some it =>
        let shift : Nat := (((im : Int) - (it : Int)) % 26).toNat
        match decryptChars shift ct.data with
        | .error e => .error e
        | .ok d =>
          if d.isEmpty then .error "Le texte dechiffre est vide." else .ok (some (⟨d⟩, shift))

/-! ### Character-level lemmas -/

/-- A character on which the decryption comprehension cannot raise: either
it is uncased, or its lowered form is found in the alphabet. -/
def charOk (c : Char) : Prop :=
  (pyIsUpper c || pyIsLower c) = true → (alphabetIndex? (pyLower c)).isSome = true

instance (c : Char) : Decidable (charOk c) := by unfold charOk; infer_instance

theorem shiftCharDecode_uncased (s : Nat) (c : Char)
    (h1 : pyIsUpper c = false) (h2 : pyIsLower c = false) :
    shiftCharDecode s c = .ok c := by
  simp [shiftCharDecode, h1, h2]

theorem shiftCharDecode_ok_of_charOk (s : Nat) (c : Char) (h : charOk c) :
    ∃ d, shiftCharDecode s c = .ok d := by
  unfold shiftCharDecode
  by_cases hu : pyIsUpper c
  · have hsome : (alphabetIndex? (pyLower c)).isSome = true := h (by simp [hu])
    obtain ⟨i, hi⟩ := Option.isSome_iff_exists.mp hsome
    rw [if_pos hu, hi]
    exact ⟨_, rfl⟩
  · by_cases hl : pyIsLower c
    · have hsome : (alphabetIndex? (pyLower c)).isSome = true := h (by simp [hl])
      obtain ⟨i, hi⟩ := Option.isSome_iff_exists.mp hsome
      rw [if_neg hu, if_pos hl, hi]
      exact ⟨_, rfl⟩
    · rw [if_neg hu, if_neg hl]
      exact ⟨c, rfl⟩

theorem shiftCharDecode_error_of_not_charOk (s : Nat) (c : Char) (h : ¬ charOk c) :
    shiftCharDecode s c = .error "substring not found" := by
  rw [charOk] at h
  push_neg at h
  obtain ⟨hcased, hnone⟩ := h
  have hnone' : alphabetIndex? (pyLower c) = none := by
    cases hidx : alphabetIndex? (pyLower c) with
    | none => rfl
    | some i => rw [hidx] at hnone; simp at hnone
  unfold shiftCharDecode
  by_cases hu : pyIsUpper c
  · simp [hu, hnone']
  · have hl : pyIsLower c = true := by
      cases hl : pyIsLower c with
      | true => rfl
      | false => rw [Bool.or_eq_true] at hcased; rcases hcased with h' | h' <;> simp_all
    simp [hu, hl, hnone']

/-! ### Lemmas about `decryptChars` -/

theorem decryptChars_ok (s : Nat) (l : List Char) (hOK : ∀ c ∈ l, charOk c) :
    ∃ d, decryptChars s l = .ok d := by
  induction l with
  | nil => exact ⟨[], rfl⟩
  | cons c cs ih =>
    obtain ⟨d, hd⟩ := shiftCharDecode_ok_of_charOk s c (hOK c (by simp))
    obtain ⟨ds, hds⟩ := ih (fun x hx => hOK x (by simp [hx]))
    exact ⟨d :: ds, by simp [decryptChars, hd, hds]⟩

theorem decryptChars_error (s : Nat) (l : List Char) (hbad : ∃ c ∈ l, ¬ charOk c) :
    ∃ e, decryptChars s l = .error e := by
  induction l with
  | nil => simp at hbad
  | cons c cs ih =>
    by_cases hc : charOk c
    · obtain ⟨d, hd⟩ := shiftCharDecode_ok_of_charOk s c hc
      have hbad' : ∃ x ∈ cs, ¬ charOk x := by
        obtain ⟨x, hx, hnx⟩ := hbad
        rcases List.mem_cons.mp hx with rfl | hx'
        · exact absurd hc hnx
        · exact ⟨x, hx', hnx⟩
      obtain ⟨e, he⟩ := ih hbad'
      exact ⟨e, by simp [decryptChars, hd, he]⟩
    · refine ⟨"substring not found", ?_⟩
      simp [decryptChars, shiftCharDecode_error_of_not_charOk s c hc]

theorem decryptChars_length (s : Nat) (l d : List Char) (h : decryptChars s l = .ok d) :
    d.length = l.length := by
  induction l generalizing d with
  | nil => simp [decryptChars] at h; simp [← h]
  | cons c cs ih =>
    rw [decryptChars] at h
    cases hc : shiftCharDecode s c with
    | error e => rw [hc] at h; simp at h
    | ok x =>
      rw [hc] at h
      cases hcs : decryptChars s cs with
      | error e => rw [hcs] at h; simp at h
      | ok ds =>
        rw [hcs] at h
        simp at h
        subst h
        simp [ih ds hcs]

/-- What a single decryption step preserves, following the evaluation order
of the Python conditional expression: uncased characters verbatim, an
`isupper` character maps to an uppercase one, an `islower` (and not
`isupper`) character to a lowercase one. -/
def charPreserved (a b : Char) : Prop :=
  (pyIsUpper a = false → pyIsLower a = false → b = a) ∧
  (pyIsUpper a = true → pyIsUpper b = true) ∧
  (pyIsUpper a = false → pyIsLower a = true → pyIsLower b = true)

theorem emod26_toNat_lt (x : Int) : (x % 26).toNat < 26 := by
  have h1 : 0 ≤ x % 26 := Int.emod_nonneg x (by decide)
  have h2 : x % 26 < 26 := Int.emod_lt_of_pos x (by decide)
  omega

theorem alphabet_getD_upper_isUpper : ∀ j < 26,
    pyIsUpper (pyUpper (alphabet.getD j ' ')) = true := by decide

theorem alphabet_getD_isLower : ∀ j < 26, pyIsLower (alphabet.getD j ' ') = true := by decide

theorem shiftCharDecode_preserves (s : Nat) (a b : Char)
    (h : shiftCharDecode s a = .ok b) : charPreserved a b := by
  unfold shiftCharDecode at h
  by_cases hu : pyIsUpper a
  · rw [if_pos hu] at h
    cases hidx : alphabetIndex? (pyLower a) with
    | none => rw [hidx] at h; simp at h
    | some i =>
      rw [hidx] at h
      simp only [Except.ok.injEq] at h
      refine ⟨fun h1 _ => by rw [h1] at hu; simp at hu,
              fun _ => ?_, fun h1 _ => by rw [h1] at hu; simp at hu⟩
      rw [← h]
      exact alphabet_getD_upper_isUpper _ (emod26_toNat_lt _)
  · rw [if_neg hu] at h
    by_cases hl : pyIsLower a
    · rw [if_pos hl] at h
      cases hidx : alphabetIndex? (pyLower a) with
      | none => rw [hidx] at h; simp at h
      | some i =>
        rw [hidx] at h
        simp only [Except.ok.injEq] at h
        refine ⟨fun _ h2 => by rw [h2] at hl; simp at hl,
                fun h1 => by rw [eq_false_of_ne_true hu] at h1; simp at h1, fun _ _ => ?_⟩
        rw [← h]
        exact alphabet_getD_isLower _ (emod26_toNat_lt _)
    · rw [if_neg hl] at h
      simp only [Except.ok.injEq] at h
      subst h
      exact ⟨fun _ _ => rfl,
             fun h1 => by rw [h1] at hu; simp at hu,
             fun _ h2 => by rw [h2] at hl; simp at hl⟩

theorem decryptChars_forall₂ (s : Nat) (l d : List Char) (h : decryptChars s l = .ok d) :
    List.Forall₂ charPreserved l d := by
  induction l generalizing d with
  | nil =>
    rw [decryptChars] at h
    simp only [Except.ok.injEq] at h
    subst h
    exact List.Forall₂.nil
  | cons c cs ih =>
    rw [decryptChars] at h
    cases hc : shiftCharDecode s c with
    | error e => rw [hc] at h; simp at h
    | ok x =>
      rw [hc] at h
      cases hcs : decryptChars s cs with
      | error e => rw [hcs] at h; simp at h
      | ok ds =>
        rw [hcs] at h
        simp only [Except.ok.injEq] at h
        subst h
        exact List.Forall₂.cons (shiftCharDecode_preserves s c x hc) (ih ds hcs)

/-! ### Lemmas about the valid-word ratio -/

theorem wordRatio_nonneg (voc : List (List Char)) (d : List Char) : 0 ≤ wordRatio voc d := by
  unfold wordRatio
  by_cases h : (splitWords d).isEmpty
  · simp [h]
  · rw [if_neg h]
    positivity

theorem wordRatio_le_one (voc : List (List Char)) (d : List Char) : wordRatio voc d ≤ 1 := by
  unfold wordRatio
  by_cases h : (splitWords d).isEmpty
  · simp [h]
  · rw [if_neg h]
    have hpos : 0 < (splitWords d).length := by
      cases hs : splitWords d with
      | nil => rw [hs] at h; simp at h
      | cons a l => simp [hs]
    rw [div_le_one (by exact_mod_cast hpos)]
    exact_mod_cast List.length_filter_le _ _

theorem wordRatio_nil : wordRatio voc [] = 0 := rfl

theorem wordRatio_pos_ne_nil (voc : List (List Char)) (d : List Char)
    (h : 0 < wordRatio voc d) : d ≠ [] := by
  intro hd
  rw [hd, wordRatio_nil] at h
  exact lt_irrefl 0 h

theorem wordRatio_nil_vocab (d : List Char) : wordRatio [] d = 0 := by
  unfold wordRatio
  by_cases h : (splitWords d).isEmpty
  · simp [h]
  · rw [if_neg h]
    have : (splitWords d).filter (fun w => List.contains [] (w.map pyLower)) = [] := by
      simp [List.contains]
    rw [this]
    simp

theorem ratioAt_nonneg (voc : List (List Char)) (ct : List Char) (s : Nat) :
    0 ≤ ratioAt voc ct s := by
  unfold ratioAt
  cases h : decryptChars s ct with
  | ok d => exact wordRatio_nonneg voc d
  | error e => exact le_refl 0

theorem ratioAt_eq_of_decrypt (voc : List (List Char)) (ct : List Char) (s : Nat)
    (d : List Char) (h : decryptChars s ct = .ok d) : ratioAt voc ct s = wordRatio voc d := by
  unfold ratioAt
  rw [h]

/-! ### The bruteforce loop invariant -/

theorem bfLoop_spec (voc : List (List Char)) (ct : List Char)
    (hOK : ∀ c ∈ ct, charOk c) :
    ∀ (L : List Nat) (st : BFState),
    ∃ st', bfLoop voc ct st L = .ok st' ∧
      st.bestRatio ≤ st'.bestRatio ∧
      (∀ s ∈ L, ratioAt voc ct s ≤ st'.bestRatio) ∧
      (st' = st ∨
       ∃ s d L₁ L₂, L = L₁ ++ s :: L₂ ∧ decryptChars s ct = .ok d ∧
         st'.best = some (d, s) ∧ st'.bestRatio = ratioAt voc ct s ∧
         st.bestRatio < st'.bestRatio ∧
         ∀ s' ∈ L₁, ratioAt voc ct s' < st'.bestRatio) := by
  intro L
  induction L with
  | nil =>
    intro st
    exact ⟨st, rfl, le_refl _, by simp, Or.inl rfl⟩
  | cons a L ih =>
    intro st
    obtain ⟨d, hd⟩ := decryptChars_ok a ct hOK
    have hra : ratioAt voc ct a = wordRatio voc d := ratioAt_eq_of_decrypt voc ct a d hd
    rw [bfLoop, hd]
    dsimp only
    by_cases hlt : st.bestRatio < wordRatio voc d
    · rw [if_pos hlt]
      obtain ⟨st', h1, h2, h3, h4⟩ := ih ⟨some (d, a), wordRatio voc d⟩
      refine ⟨st', h1, le_of_lt (lt_of_lt_of_le hlt h2), ?_, ?_⟩
      · intro s hs
        rcases List.mem_cons.mp hs with rfl | hs'
        · rw [hra]; exact h2
        · exact h3 s hs'
      · rcases h4 with heq | ⟨s, d', L₁, L₂, hL, hdec, hbest, hratio, hlt2, hfirst⟩
        · refine Or.inr ⟨a, d, [], L, by simp, hd, ?_, ?_, ?_, by simp⟩
          · rw [heq]
          · rw [heq, hra]
          · rw [heq]; exact hlt
        · refine Or.inr ⟨s, d', a :: L₁, L₂, by rw [hL]; rfl, hdec, hbest, hratio,
            lt_trans hlt hlt2, ?_⟩
          intro s' hs'
          rcases List.mem_cons.mp hs' with rfl | hs''
          · rw [hra]; exact hlt2
          · exact hfirst s' hs''
    · rw [if_neg hlt]
      push_neg at hlt
      obtain ⟨st', h1, h2, h3, h4⟩ := ih st
      refine ⟨st', h1, h2, ?_, ?_⟩
      · intro s hs
        rcases List.mem_cons.mp hs with rfl | hs'
        · rw [hra]; exact le_trans hlt h2
        · exact h3 s hs'
      · rcases h4 with heq | ⟨s, d', L₁, L₂, hL, hdec, hbest, hratio, hlt2, hfirst⟩
        · exact Or.inl heq
        · refine Or.inr ⟨s, d', a :: L₁, L₂, by rw [hL]; rfl, hdec, hbest, hratio, hlt2, ?_⟩
          intro s' hs'
          rcases List.mem_cons.mp hs' with rfl | hs''
          · rw [hra]; exact lt_of_le_of_lt hlt hlt2
          · exact hfirst s' hs''

/-! ### Classification of a `bruteforce_cesar` run -/

theorem bfShifts_pairwise : bfShifts.Pairwise (· < ·) := by decide

/-- Every run of `bruteforce_cesar` on decodable input either fails with
the final assertion — exactly when every shift scores ratio `0` — or
returns the first shift attaining the strictly positive maximal ratio. -/
theorem bruteforce_classify (ct : List Char) (voc : List (List Char))
    (hOK : ∀ c ∈ ct, charOk c) :
    ((∀ s ∈ bfShifts, ratioAt voc ct s = 0) ∧ bruteforce_cesar ct voc = .error bfAssertMsg) ∨
    (∃ m s r, bruteforce_cesar ct voc = .ok (m, s, r) ∧
       decryptChars s ct = .ok m ∧ r = ratioAt voc ct s ∧ 0 < r ∧
       s ∈ bfShifts ∧ m ≠ [] ∧
       (∀ s' ∈ bfShifts, ratioAt voc ct s' ≤ r) ∧
       (∀ s' ∈ bfShifts, s' < s → ratioAt voc ct s' < r)) := by
  obtain ⟨st', hrun, hmono, hdom, hcase⟩ := bfLoop_spec voc ct hOK bfShifts ⟨none, 0⟩
  have hbf : bruteforce_cesar ct voc =
      match st'.best with
      | some (m, s) => if m.isEmpty then .error bfAssertMsg else .ok (m, s, st'.bestRatio)
      | none => .error bfAssertMsg := by
    unfold bruteforce_cesar
    rw [hrun]
  rcases hcase with heq | ⟨s, d, L₁, L₂, hL, hdec, hbest, hratio, hpos, hfirst⟩
  · left
    have hzero : ∀ s ∈ bfShifts, ratioAt voc ct s = 0 := by
      intro s hs
      have h1 : ratioAt voc ct s ≤ st'.bestRatio := hdom s hs
      rw [heq] at h1
      exact le_antisymm h1 (ratioAt_nonneg voc ct s)
    refine ⟨hzero, ?_⟩
    rw [hbf, heq]
  · right
    have hzero : (0 : ℚ) < st'.bestRatio := hpos
    have hdne : d ≠ [] := by
      intro hnil
      rw [hratio, ratioAt_eq_of_decrypt voc ct s d hdec, hnil, wordRatio_nil] at hzero
      exact lt_irrefl 0 hzero
    have hmem : s ∈ bfShifts := by
      rw [hL]
      exact List.mem_append_right L₁ (List.mem_cons_self s L₂)
    refine ⟨d, s, st'.bestRatio, ?_, hdec, hratio, hzero, hmem, hdne, hdom, ?_⟩
    · rw [hbf, hbest]
      simp [List.isEmpty_iff, hdne]
    · intro s' hs' hlt
      have hpw := bfShifts_pairwise
      rw [hL] at hpw
      obtain ⟨hpw1, hpw2, hrel⟩ := List.pairwise_append.mp hpw
      have hmem' := hs'
      rw [hL] at hmem'
      rcases List.mem_append.mp hmem' with h1 | h2
      · exact hfirst s' h1
      · rcases List.mem_cons.mp h2 with rfl | h3
        · exact absurd hlt (lt_irrefl s')
        · have := (List.pairwise_cons.mp hpw2).1 s' h3
          omega

/-- When some character of the ciphertext makes the per-character alphabet
lookup fail, `bruteforce_cesar` propagates that failure from the first
shift. -/
theorem bruteforce_error_of_bad_char (ct : List Char) (voc : List (List Char))
    (hbad : ∃ c ∈ ct, ¬ charOk c) : ∃ e, bruteforce_cesar ct voc = .error e := by
  obtain ⟨e, he⟩ := decryptChars_error 1 ct hbad
  refine ⟨e, ?_⟩
  unfold bruteforce_cesar
  have h1 : bfShifts = 1 :: List.range' 2 24 := by decide
  rw [h1, bfLoop, he]

theorem bruteforce_ok_charOK (ct : List Char) (voc : List (List Char))
    (x : List Char × Nat × ℚ) (h : bruteforce_cesar ct voc = .ok x) : ∀ c ∈ ct, charOk c := by
  by_contra hbad
  push_neg at hbad
  obtain ⟨e, he⟩ := bruteforce_error_of_bad_char ct voc (by
    obtain ⟨c, hc, hnc⟩ := hbad
    exact ⟨c, hc, hnc⟩)
  rw [he] at h
  exact Except.noConfusion h

theorem mem_bfShifts (s : Nat) : s ∈ bfShifts ↔ 1 ≤ s ∧ s ≤ 25 := by
  unfold bfShifts
  rw [List.mem_range']
  constructor
  · rintro ⟨i, hi, rfl⟩
    omega
  · rintro ⟨h1, h2⟩
    exact ⟨s - 1, by omega, by omega⟩

/-- Inversion of a successful `bruteforce_cesar` run: everything the
classification says about the returned triple. -/
theorem bruteforce_ok_spec (ct : List Char) (voc : List (List Char))
    (m : List Char) (s : Nat) (r : ℚ) (h : bruteforce_cesar ct voc = .ok (m, s, r)) :
    decryptChars s ct = .ok m ∧ r = ratioAt voc ct s ∧ 0 < r ∧
    s ∈ bfShifts ∧ m ≠ [] ∧
    (∀ s' ∈ bfShifts, ratioAt voc ct s' ≤ r) ∧
    (∀ s' ∈ bfShifts, s' < s → ratioAt voc ct s' < r) := by
  have hOK := bruteforce_ok_charOK ct voc (m, s, r) h
  rcases bruteforce_classify ct voc hOK with ⟨hzero, herr⟩ | ⟨m', s', r', hok, rest⟩
  · rw [herr] at h
    exact Except.noConfusion h
  · have heq : (Except.ok (m', s', r') : Except String _) = .ok (m, s, r) := hok.symm.trans h
    simp only [Except.ok.injEq, Prod.mk.injEq] at heq
    obtain ⟨rfl, rfl, rfl⟩ := heq
    exact rest

/-! ### Claim theorems about `bruteforce_cesar` -/

/-- Ciphertext used by the concrete bruteforce witnesses: `"le chat"`
encoded with shift 1. -/
def wTxt : List Char := "mf dibu".data

/-- Vocabulary used by the concrete bruteforce witnesses. -/
def wVoc : List (List Char) := [['l', 'e'], ['c', 'h', 'a', 't']]

/-- C2: whenever `bruteforce_cesar` returns a triple, its ratio is the
maximum valid-word ratio over the shifts 1..25, its text is the decoding
of the ciphertext at the returned shift, and every smaller shift scores a
strictly smaller ratio — so among the shifts attaining the maximum the
smallest (first-seen) one is returned. -/
theorem bruteforce_returns_first_max_ratio (ct : List Char) (voc : List (List Char))
    (m : List Char) (s : Nat) (r : ℚ) (h : bruteforce_cesar ct voc = .ok (m, s, r)) :
    decryptChars s ct = .ok m ∧ r = ratioAt voc ct s ∧
    (∀ s', 1 ≤ s' → s' ≤ 25 → ratioAt voc ct s' ≤ r) ∧
    (∀ s', 1 ≤ s' → s' < s → ratioAt voc ct s' < r) := by
  obtain ⟨h1, h2, _, hmem, _, hmax, hfirst⟩ := bruteforce_ok_spec ct voc m s r h
  refine ⟨h1, h2, ?_, ?_⟩
  · intro s' hs1 hs2
    exact hmax s' ((mem_bfShifts s').mpr ⟨hs1, hs2⟩)
  · intro s' hs1 hlt
    have hs25 := ((mem_bfShifts s).mp hmem).2
    exact hfirst s' ((mem_bfShifts s').mpr ⟨hs1, by omega⟩) hlt

theorem bruteforce_returns_first_max_ratio_witness :
    decryptChars 1 wTxt = .ok "le chat".data ∧ (1 : ℚ) = ratioAt wVoc wTxt 1 ∧
    (∀ s', 1 ≤ s' → s' ≤ 25 → ratioAt wVoc wTxt s' ≤ 1) ∧
    (∀ s', 1 ≤ s' → s' < 1 → ratioAt wVoc wTxt s' < 1) :=
  bruteforce_returns_first_max_ratio wTxt wVoc "le chat".data 1 1 (by rfl)

/-- C6: the candidate shifts are exactly 1 through 25 — never 0 — and any
returned shift lies in that range. -/
theorem bruteforce_shift_space (ct : List Char) (voc : List (List Char))
    (m : List Char) (s : Nat) (r : ℚ) (h : bruteforce_cesar ct voc = .ok (m, s, r)) :
    bfShifts = [1, 2, 3, 4, 5, 6, 7, 8, 9, 10, 11, 12, 13,
      14, 15, 16, 17, 18, 19, 20, 21, 22, 23, 24, 25] ∧
    (0 : Nat) ∉ bfShifts ∧ s ∈ bfShifts ∧ 1 ≤ s ∧ s ≤ 25 := by
  obtain ⟨_, _, _, hmem, _, _, _⟩ := bruteforce_ok_spec ct voc m s r h
  have hb := (mem_bfShifts s).mp hmem
  exact ⟨by decide, by decide, hmem, hb.1, hb.2⟩

theorem bruteforce_shift_space_witness :
    bfShifts = [1, 2, 3, 4, 5, 6, 7, 8, 9, 10, 11, 12, 13,
      14, 15, 16, 17, 18, 19, 20, 21, 22, 23, 24, 25] ∧
    (0 : Nat) ∉ bfShifts ∧ 1 ∈ bfShifts ∧ 1 ≤ 1 ∧ 1 ≤ 25 :=
  bruteforce_shift_space wTxt wVoc "le chat".data 1 1 (by rfl)

/-- C9: a normally returned triple has a ratio strictly above 0 and at
most 1, a shift in [1,25], and a non-empty decoded text. -/
theorem bruteforce_success_invariants (ct : List Char) (voc : List (List Char))
    (m : List Char) (s : Nat) (r : ℚ) (h : bruteforce_cesar ct voc = .ok (m, s, r)) :
    0 < r ∧ r ≤ 1 ∧ 1 ≤ s ∧ s ≤ 25 ∧ m ≠ [] := by
  obtain ⟨h1, h2, hpos, hmem, hne, _, _⟩ := bruteforce_ok_spec ct voc m s r h
  have hb := (mem_bfShifts s).mp hmem
  refine ⟨hpos, ?_, hb.1, hb.2, hne⟩
  rw [h2, ratioAt_eq_of_decrypt voc ct s m h1]
  exact wordRatio_le_one voc m

theorem bruteforce_success_invariants_witness :
    0 < (1 : ℚ) ∧ (1 : ℚ) ≤ 1 ∧ 1 ≤ 1 ∧ 1 ≤ 25 ∧ "le chat".data ≠ [] :=
  bruteforce_success_invariants wTxt wVoc "le chat".data 1 1 (by rfl)

/-- C1 counterexample: on the alphabetic ciphertext `"abc"` with an empty
vocabulary, every one of the 25 shifts yields exactly one word (not zero),
and `bruteforce_cesar` nevertheless propagates the fatal assertion
failure. -/
theorem bruteforce_empty_vocab_raises :
    bruteforce_cesar ['a', 'b', 'c'] [] = .error bfAssertMsg ∧
    ∀ s ∈ bfShifts, wordCountAt ['a', 'b', 'c'] s = 1 :=
  ⟨rfl, by decide⟩

/-- C1 amended: on decodable ciphertext, `bruteforce_cesar` fails exactly
when every shift in 1..25 scores a valid-word ratio of 0; in particular an
empty vocabulary always makes the call propagate the assertion failure
rather than return a degenerate result. -/
theorem bruteforce_error_iff_all_ratios_zero (ct : List Char) (voc : List (List Char))
    (hOK : ∀ c ∈ ct, charOk c) :
    ((∃ e, bruteforce_cesar ct voc = .error e) ↔ ∀ s ∈ bfShifts, ratioAt voc ct s = 0) ∧
    (voc = [] → ∃ e, bruteforce_cesar ct voc = .error e) := by
  have hiff : (∃ e, bruteforce_cesar ct voc = .error e) ↔
      ∀ s ∈ bfShifts, ratioAt voc ct s = 0 := by
    constructor
    · rintro ⟨e, he⟩
      rcases bruteforce_classify ct voc hOK with ⟨hzero, _⟩ | ⟨m, s, r, hok, _⟩
      · exact hzero
      · rw [hok] at he
        exact Except.noConfusion he
    · intro hzero
      rcases bruteforce_classify ct voc hOK with ⟨_, herr⟩ |
        ⟨m, s, r, hok, _, hr, hpos, hmem, _⟩
      · exact ⟨bfAssertMsg, herr⟩
      · rw [hr, hzero s hmem] at hpos
        exact absurd hpos (lt_irrefl 0)
  refine ⟨hiff, ?_⟩
  rintro rfl
  apply hiff.mpr
  intro s hs
  unfold ratioAt
  cases hdec : decryptChars s ct with
  | ok d => exact wordRatio_nil_vocab d
  | error e => rfl

theorem bruteforce_error_iff_all_ratios_zero_witness :
    ((∃ e, bruteforce_cesar ['a', 'b', 'c'] [] = .error e) ↔
      ∀ s ∈ bfShifts, ratioAt [] ['a', 'b', 'c'] s = 0) ∧
    (([] : List (List Char)) = [] → ∃ e, bruteforce_cesar ['a', 'b', 'c'] [] = .error e) :=
  bruteforce_error_iff_all_ratios_zero ['a', 'b', 'c'] [] (by decide)

/-! ### Claim theorems about the character-level shift operation -/

/-- The 52 Latin letters (the alphabet in both cases). -/
def latinLetters : List Char := alphabet ++ alphabet.map pyUpper

/-- Encoding followed by decoding with the same shift, the round trip of
spec §8. -/
def encodeThenDecode (s : Nat) (c : Char) : Except String Char :=
  match shiftCharEncode s c with
  | .ok e => shiftCharDecode s e
  | .error e => .error e

/-- C3 counterexample: the Greek capital Ω is not one of the 26 Latin
letters the cipher operates on, yet the shift operation does not leave it
unchanged — it fails with the `ValueError` of the alphabet lookup. -/
theorem shiftChar_greek_not_fixed :
    shiftCharDecode 1 'Ω' = .error "substring not found" ∧
    shiftCharDecode 1 'Ω' ≠ .ok 'Ω' := by decide

/-- C3 amended: for every Latin letter `c` and shift `s` in [0,25],
decoding the encoding of `c` with the same shift returns `c`, case
preserved; and every character that is neither uppercase nor lowercase is
a fixed point of the shift operation for every shift (cased characters
outside the Latin alphabet instead make the operation fail). -/
theorem shiftChar_roundtrip_and_uncased_fixed (c d : Char) (s : Nat)
    (hc : c ∈ latinLetters) (hs : s < 26)
    (hd1 : pyIsUpper d = false) (hd2 : pyIsLower d = false) :
    encodeThenDecode s c = .ok c ∧ shiftCharDecode s d = .ok d := by
  constructor
  · have key : ∀ x ∈ latinLetters, ∀ k ∈ List.range 26, encodeThenDecode k x = .ok x := by
      decide
    exact key c hc s (List.mem_range.mpr hs)
  · exact shiftCharDecode_uncased s d hd1 hd2

theorem shiftChar_roundtrip_and_uncased_fixed_witness :
    ('H' ∈ latinLetters ∧ 3 < 26 ∧ pyIsUpper '!' = false ∧ pyIsLower '!' = false) ∧
    (encodeThenDecode 3 'H' = .ok 'H' ∧ shiftCharDecode 3 '!' = .ok '!') :=
  ⟨by decide,
   shiftChar_roundtrip_and_uncased_fixed 'H' '!' 3 (by decide) (by decide) (by decide) (by decide)⟩

/-- C5 counterexample: the non-Latin letter Ω (uppercase Greek) makes the
character-level shift operation fail — both at the single-character level
and propagated through a whole text — instead of being returned
unchanged. -/
theorem shiftChar_nonlatin_raises :
    shiftCharDecode 3 'Ω' = .error "substring not found" ∧
    decryptChars 3 ['H', 'Ω'] = .error "substring not found" := by decide

/-- C5 amended: every character that is neither uppercase nor lowercase
(digits, punctuation, whitespace, uncased non-Latin characters) is
returned unchanged by the shift operation, for every shift, without
failing; cased characters outside the Latin alphabet fail instead. -/
theorem shiftChar_uncased_unchanged (c : Char) (s : Nat)
    (h1 : pyIsUpper c = false) (h2 : pyIsLower c = false) :
    shiftCharDecode s c = .ok c :=
  shiftCharDecode_uncased s c h1 h2

theorem shiftChar_uncased_unchanged_witness :
    (pyIsUpper '7' = false ∧ pyIsLower '7' = false) ∧ shiftCharDecode 9 '7' = .ok '7' :=
  ⟨by decide, shiftChar_uncased_unchanged '7' 9 (by decide) (by decide)⟩

/-! ### Claim theorems about `decrypt_cesar_frequency_analysis` -/

/-- C4: a non-absent result of the frequency analysis carries the shift
`(position of the most frequent case-folded letter of the normalized text
- position of the target letter) mod 26`, which lies in [0,25], and its
text is the normalized (not the original) ciphertext decoded with that
shift, character positions preserving case and non-letters. -/
theorem freq_analysis_shift_formula (ct : String) (tl : Char) (pt : String) (s : Nat)
    (h : decrypt_cesar_frequency_analysis ct tl = .ok (some (pt, s))) :
    ∃ m im it, mostCommon? (lettersOf (normalize_text ct).data) = some m ∧
      alphabetIndex? m = some im ∧ alphabetIndex? tl = some it ∧
      s = (((im : Int) - (it : Int)) % 26).toNat ∧ s < 26 ∧
      decryptChars s (normalize_text ct).data = .ok pt.data ∧
      pt.data.length = (normalize_text ct).data.length ∧
      List.Forall₂ charPreserved (normalize_text ct).data pt.data := by
  simp only [decrypt_cesar_frequency_analysis] at h
  cases hm : mostCommon? (lettersOf (normalize_text ct).data) with
  | none => rw [hm] at h; simp at h
  | some m =>
    rw [hm] at h
    dsimp only at h
    cases him : alphabetIndex? m with
    | none => rw [him] at h; simp at h
    | some im =>
      rw [him] at h
      dsimp only at h
      cases hit : alphabetIndex? tl with
      | none => rw [hit] at h; simp at h
      | some it =>
        rw [hit] at h
        dsimp only at h
        cases hdec : decryptChars ((((im : Int) - (it : Int)) % 26).toNat)
            (normalize_text ct).data with
        | error e => rw [hdec] at h; simp at h
        | ok d =>
          rw [hdec] at h
          dsimp only at h
          by_cases hde : d.isEmpty
          · rw [if_pos hde] at h
            simp at h
          · rw [if_neg hde] at h
            simp only [Except.ok.injEq, Option.some.injEq, Prod.mk.injEq] at h
            obtain ⟨h1, h2⟩ := h
            cases h1
            subst h2
            refine ⟨m, im, it, rfl, him, rfl, rfl, emod26_toNat_lt _, hdec, ?_, ?_⟩
            · exact decryptChars_length _ _ _ hdec
            · exact decryptChars_forall₂ _ _ _ hdec

theorem freq_analysis_shift_formula_witness :
    ∃ m im it, mostCommon? (lettersOf (normalize_text "fff").data) = some m ∧
      alphabetIndex? m = some im ∧ alphabetIndex? 'e' = some it ∧
      1 = (((im : Int) - (it : Int)) % 26).toNat ∧ 1 < 26 ∧
      decryptChars 1 (normalize_text "fff").data = .ok ("eee" : String).data ∧
      ("eee" : String).data.length = (normalize_text "fff").data.length ∧
      List.Forall₂ charPreserved (normalize_text "fff").data ("eee" : String).data :=
  freq_analysis_shift_formula "fff" 'e' "eee" 1 (by rfl)

/-- C7: when the normalized ciphertext contains no alphabetic character —
in particular for any all-punctuation string and for the empty string —
the frequency analysis returns the absent result instead of failing. -/
theorem freq_no_alpha_returns_none (ct : String) (tl : Char)
    (h : ∀ c ∈ (normalize_text ct).data, pyIsAlpha c = false) :
    decrypt_cesar_frequency_analysis ct tl = .ok none := by
  have hfil : (normalize_text ct).data.filter pyIsAlpha = [] :=
    List.filter_eq_nil_iff.mpr (fun a ha => by rw [h a ha]; exact Bool.false_ne_true)
  have hmost : mostCommon? (lettersOf (normalize_text ct).data) = none := by
    unfold lettersOf
    rw [hfil]
    rfl
  simp only [decrypt_cesar_frequency_analysis]
  rw [hmost]

theorem freq_no_alpha_returns_none_witness :
    (∀ c ∈ (normalize_text "123 !?").data, pyIsAlpha c = false) ∧
    decrypt_cesar_frequency_analysis "123 !?" 'e' = .ok none :=
  ⟨by decide, freq_no_alpha_returns_none "123 !?" 'e' (by decide)⟩

/-- C10: with a one-character target letter that is not a lowercase Latin
letter ('E', or '!') and a ciphertext containing a Latin letter, the
frequency analysis fails with the uncaught `ValueError` of
`alphabet.index`, even though the one-character precondition holds. -/
theorem freq_uppercase_target_valueerror :
    decrypt_cesar_frequency_analysis "abc" 'E' = .error "substring not found" ∧
    decrypt_cesar_frequency_analysis "abc" '!' = .error "substring not found" :=
  ⟨rfl, rfl⟩

/-! ### Idempotence of the normalizer -/

theorem normChar_inert (c : Char) : ∀ d ∈ normChar c, normChar d = [d] := by
  intro d hd
  cases hf : nfdTable.find? (fun p => p.1 == c) with
  | none =>
    unfold normChar nfdDecomp at hd
    rw [hf] at hd
    by_cases hmn : isMn c
    · simp [hmn] at hd
    · simp [hmn] at hd
      subst hd
      unfold normChar nfdDecomp
      rw [hf]
      simp [hmn]
  | some p =>
    have hp : p ∈ nfdTable := List.mem_of_find?_eq_some hf
    unfold normChar nfdDecomp at hd
    rw [hf] at hd
    have key : ∀ q ∈ nfdTable, ∀ x ∈ q.2.filter (fun y => !isMn y), normChar x = [x] := by
      decide
    exact key p hp d hd

theorem flatMap_normChar_fixed (m : List Char) (h : ∀ d ∈ m, normChar d = [d]) :
    m.flatMap normChar = m := by
  induction m with
  | nil => rfl
  | cons a l ih =>
    rw [List.flatMap_cons, h a (by simp), ih (fun d hd => h d (by simp [hd]))]
    rfl

/-- C8: `normalize_text` is idempotent. -/
theorem normalize_text_idempotent (x : String) :
    normalize_text (normalize_text x) = normalize_text x := by
  have key : ∀ l : List Char, (l.flatMap normChar).flatMap normChar = l.flatMap normChar := by
    intro l
    induction l with
    | nil => rfl
    | cons a t ih =>
      rw [List.flatMap_cons, List.flatMap_append, ih,
        flatMap_normChar_fixed (normChar a) (normChar_inert a)]
  show (⟨(normalize_text x).data.flatMap normChar⟩ : String) = normalize_text x
  have hdata : (normalize_text x).data = x.data.flatMap normChar := rfl
  rw [hdata, key]
  rfl

end Cesar
